import Mathlib

/-!
Verification of the study-assistant C++ backend against its natural-language
specification.  Each section shallowly embeds one component of the source tree
(`backend_cpp/`) as executable Lean definitions and proves (or refutes) the
spec claims about it.  Byte strings are modelled as `List Nat` (one entry per
byte, values below 256); C++ `double` scores are modelled abstractly or as
real numbers where the claims need them.
-/

namespace StudyAssistant

/-! ## `sanitize_utf8` and `CodeNode::to_json` (src/code_graph.cpp, lines 16-45)

`sanitize_utf8` walks the bytes of its input; each byte is classified by the
chain `c < 0x80`, `c >= 0xC0`, `0x80 <= c < 0xC0`, with a final `'?'` (byte 63)
fallback.  `CodeNode::to_json` serializes the textual fields through
`sanitize_utf8` and copies `type`, `dependencies`, `embedding`, `weights`,
`ai_quality_score` untouched. -/

def sanitizeByte (c : Nat) : Nat :=
  if c < 0x80 then c
  else if 0xC0 ≤ c then c
  else if 0x80 ≤ c ∧ c < 0xC0 then c
  else 63

def sanitize_utf8 (s : List Nat) : List Nat :=
  s.map sanitizeByte

/-- A `CodeNode` as in src/backend_cpp/include/code_graph.hpp: textual fields
are byte strings, `weights` an association list, `embedding` kept abstract
(its float entries play no role in the serialization claims). -/
structure CodeNode where
  id : List Nat
  name : List Nat
  content : List Nat
  docstring : List Nat
  file_path : List Nat
  type : List Nat
  dependencies : List (List Nat)
  ai_summary : List Nat
  deriving Repr, DecidableEq

/-- The JSON object produced by `CodeNode::to_json` (field order ignored). -/
structure CodeNodeJson where
  id : List Nat
  name : List Nat
  content : List Nat
  docstring : List Nat
  file_path : List Nat
  type : List Nat
  dependencies : List (List Nat)
  ai_summary : List Nat
  deriving Repr, DecidableEq

def CodeNode.to_json (n : CodeNode) : CodeNodeJson :=
  { id := sanitize_utf8 n.id
    name := sanitize_utf8 n.name
    content := sanitize_utf8 n.content
    docstring := sanitize_utf8 n.docstring
    file_path := sanitize_utf8 n.file_path
    type := n.type
    dependencies := n.dependencies
    ai_summary := sanitize_utf8 n.ai_summary }

theorem sanitizeByte_id (c : Nat) : sanitizeByte c = c := by
  unfold sanitizeByte
  by_cases h1 : c < 0x80
  · simp [h1]
  · by_cases h2 : 0xC0 ≤ c
    · simp [h1, h2]
    · have h3 : 0x80 ≤ c ∧ c < 0xC0 := by omega
      simp [h1, h2, h3]

theorem sanitize_utf8_id (s : List Nat) : sanitize_utf8 s = s := by
  unfold sanitize_utf8
  induction s with
  | nil => rfl
  | cons b t ih => simp [sanitizeByte_id, ih]

/-- C9: `sanitize_utf8` is the identity (its `'?'` branch is unreachable:
the three copying branches already cover every byte value), hence
`CodeNode::to_json` reproduces `id`, `name`, `content`, `docstring`,
`file_path` and `ai_summary` byte-for-byte. -/
theorem to_json_preserves_fields (n : CodeNode) :
    (∀ s : List Nat, sanitize_utf8 s = s) ∧
    n.to_json.id = n.id ∧
    n.to_json.name = n.name ∧
    n.to_json.content = n.content ∧
    n.to_json.docstring = n.docstring ∧
    n.to_json.file_path = n.file_path ∧
    n.to_json.ai_summary = n.ai_summary := by
  refine ⟨sanitize_utf8_id, ?_, ?_, ?_, ?_, ?_, ?_⟩ <;>
    simp [CodeNode.to_json, sanitize_utf8_id]

/-! ## KeyManager (src/backend_cpp/include/KeyManager.hpp)

The credential pool holds a vector of `ApiKey {key, is_active, fail_count}`,
a vector of model names and two cursors.  `get_current_pair` reads
`current_key_index % key_pool.size()` with no regard to `is_active`;
`rotate_key` increments the key cursor; `report_rate_limit` increments the
fail counter of the key under the cursor and marks it inactive once
`fail_count > 2`, but does not move the cursor. -/

structure ApiKey where
  key : String
  is_active : Bool
  fail_count : Nat
  deriving Repr, DecidableEq

structure KeyManager where
  key_pool : List ApiKey
  model_pool : List String
  current_key_index : Nat
  current_model_index : Nat
  deriving Repr, DecidableEq

structure KeyModelPair where
  key : String
  model : String
  key_index : Nat
  model_index : Nat
  deriving Repr, DecidableEq

def KeyManager.get_current_pair (km : KeyManager) : KeyModelPair :=
  if km.key_pool.isEmpty ∨ km.model_pool.isEmpty then ⟨"", "", 0, 0⟩
  else
    let key_idx := km.current_key_index % km.key_pool.length
    let model_idx := km.current_model_index % km.model_pool.length
    ⟨(km.key_pool.getD key_idx ⟨"", true, 0⟩).key,
     km.model_pool.getD model_idx "",
     key_idx, model_idx⟩

def KeyManager.rotate_key (km : KeyManager) : KeyManager :=
  { km with current_key_index := km.current_key_index + 1 }

def KeyManager.rotate_model (km : KeyManager) : KeyManager :=
  { km with current_model_index := km.current_model_index + 1,
            current_key_index := 0 }

def bumpFail (k : ApiKey) : ApiKey :=
  let k1 : ApiKey := { k with fail_count := k.fail_count + 1 }
  if k1.fail_count > 2 then { k1 with is_active := false } else k1

def KeyManager.report_rate_limit (km : KeyManager) : KeyManager :=
  if km.key_pool.isEmpty then km
  else
    let idx := km.current_key_index % km.key_pool.length
    { km with key_pool := km.key_pool.modify bumpFail idx }

def KeyManager.get_active_key_count (km : KeyManager) : Nat :=
  (km.key_pool.filter (·.is_active)).length

/-- The starting pool of S3-style scenarios: two fresh keys, one model,
cursor at key 0. -/
def kmTwoKeys : KeyManager :=
  { key_pool := [⟨"K1", true, 0⟩, ⟨"K2", true, 0⟩]
    model_pool := ["gemini-2.5-flash"]
    current_key_index := 0
    current_model_index := 0 }

/-- C6 (code bug): `report_rate_limit` never moves the key cursor — for every
pool state the cursor after a failure report equals the cursor before — and a
key deactivated by three failure reports is still returned by
`get_current_pair` rather than skipped: starting from two fresh keys, three
reports leave key 0 with `fail_count = 3`, `is_active = false`, the cursor
still at 0, and `get_current_pair` still hands out K1. -/
theorem report_rate_limit_no_rotation_no_skip :
    (∀ km : KeyManager,
        (km.report_rate_limit).current_key_index = km.current_key_index) ∧
    (((kmTwoKeys.report_rate_limit).report_rate_limit).report_rate_limit).key_pool.getD 0 ⟨"", true, 0⟩
      = ⟨"K1", false, 3⟩ ∧
    (((kmTwoKeys.report_rate_limit).report_rate_limit).report_rate_limit).get_current_pair
      = ⟨"K1", "gemini-2.5-flash", 0, 0⟩ := by
  refine ⟨?_, by decide, by decide⟩
  intro km
  unfold KeyManager.report_rate_limit
  by_cases h : km.key_pool.isEmpty <;> simp [h]

/-! ## FileSystemTools::read_file_safe (src/tools/FileSystemTools.cpp, lines 143-158)

Paths are modelled as lists of segments.  `normSegs` is
`std::filesystem::path::lexically_normal` restricted to relative paths:
it drops `.` segments and lets `..` cancel the preceding segment.
`is_inside_path` (lines 13-23 of the same file) checks that the normalized
parent is a segment prefix of the normalized child; `read_file_safe` itself
performs no such containment check: it joins `root / rel`, normalizes, and
serves the file if it exists and is at most 512 KiB. -/

def normStep (acc : List String) (seg : String) : List String :=
  if seg = "." then acc
  else if seg = ".." then
    match acc.getLast? with
    | some last => if last = ".." then acc ++ [".."] else acc.dropLast
    | none => acc ++ [".."]
  else acc ++ [seg]

def normSegs (segs : List String) : List String :=
  segs.foldl normStep []

def is_inside_path (child parent : List String) : Bool :=
  if parent.isEmpty then false
  else (normSegs parent).isPrefixOf (normSegs child)

/-- The filesystem the tool reads from: a partial map from normalized segment
paths to file contents. -/
def FileMap : Type := List String → Option String

def read_file_safe (fsm : FileMap) (root rel : List String) : String :=
  let target := normSegs (root ++ rel)
  match fsm target with
  | none => "ERROR: File not found at " ++ String.intercalate "/" rel
  | some content =>
      if content.length > 1024 * 512 then
        "ERROR: File too large for direct read (>512KB)."
      else content

def secretFs : FileMap :=
  fun p => if p = ["home", "user", "secret.txt"] then some "TOP-SECRET" else none

/-- C3 (code bug): `read_file_safe` never rejects an escape from the project
root.  With the project root `home/user/proj` and the argument path
`../secret.txt` — which resolves to `home/user/secret.txt`, outside the
root — the tool returns the file content itself, not an `ERROR:` string. -/
theorem read_file_safe_escapes_root :
    read_file_safe secretFs ["home", "user", "proj"] ["..", "secret.txt"]
        = "TOP-SECRET" ∧
    is_inside_path (normSegs (["home", "user", "proj"] ++ ["..", "secret.txt"]))
        ["home", "user", "proj"] = false ∧
    (read_file_safe secretFs ["home", "user", "proj"] ["..", "secret.txt"]).data.take 5
        ≠ "ERROR".data := by
  refine ⟨by decide, by decide, by decide⟩

/-! ## AtomicJournal (src/backend_cpp/include/tools/AtomicJournal.hpp)

The journal discipline acts on one target file: the state is the file's
content (`none` = file absent) together with the content of
`<path>.synapse_journal`.  External effects are oracles: `validSyntax` stands
for `ASTBooster::validate_syntax` and the booleans `backupFails` / `openFails`
for a throwing `fs::copy` in `backup` and a failing `ofstream` open
(a throwing copy is modelled as atomic: no partial journal is left behind).
`apply_surgery_safe` returns the C++ `bool` along with the resulting state. -/

structure FsState where
  content : Option String
  journal : Option String
  deriving Repr, DecidableEq

def validate_ast_integrity (validSyntax : String → String → Bool)
    (code ext : String) : Bool :=
  if !(validSyntax code ext) then false
  else if code.length < 10 ∧ ext ≠ ".txt" then false
  else true

def rollback (st : FsState) : FsState :=
  match st.journal with
  | some j => { content := some j, journal := none }
  | none => st

def apply_surgery_safe (validSyntax : String → String → Bool) (ext : String)
    (new_code : String) (backupFails openFails : Bool) (st : FsState) :
    Bool × FsState :=
  if !(validate_ast_integrity validSyntax new_code ext) then (false, st)
  else
    match st.content with
    | some c =>
        if backupFails then (false, st)
        else
          let st1 : FsState := { st with journal := some c }
          if openFails then (false, rollback st1)
          else (true, { content := some new_code, journal := none })
    | none =>
        if openFails then (false, rollback st)
        else (true, { content := some new_code, journal := none })

/-- C2: starting from a state with no stale journal, `apply_surgery_safe`
either succeeds — leaving exactly the new content and no journal — or fails
leaving the file byte-identical to its pre-call content and no journal. -/
theorem apply_surgery_safe_atomic (validSyntax : String → String → Bool)
    (ext new_code : String) (backupFails openFails : Bool) (st : FsState)
    (hj : st.journal = none) :
    ((apply_surgery_safe validSyntax ext new_code backupFails openFails st).1 = true →
      (apply_surgery_safe validSyntax ext new_code backupFails openFails st).2.content
          = some new_code ∧
      (apply_surgery_safe validSyntax ext new_code backupFails openFails st).2.journal
          = none) ∧
    ((apply_surgery_safe validSyntax ext new_code backupFails openFails st).1 = false →
      (apply_surgery_safe validSyntax ext new_code backupFails openFails st).2.content
          = st.content ∧
      (apply_surgery_safe validSyntax ext new_code backupFails openFails st).2.journal
          = none) := by
  unfold apply_surgery_safe
  by_cases hv : validate_ast_integrity validSyntax new_code ext
  · cases hc : st.content with
    | some c =>
        cases backupFails with
        | true => simp [hv, hc, hj]
        | false =>
            cases openFails with
            | true => simp [hv, hc, rollback]
            | false => simp [hv, hc]
    | none =>
        cases openFails with
        | true => simp [hv, hc, hj, rollback]
        | false => simp [hv, hc]
  · simp [hv, hj]

/-- Witness for C2 at a concrete state: file `old-code.py`, syntax always
valid, no I/O failures. -/
theorem apply_surgery_safe_atomic_witness :
    ((apply_surgery_safe (fun _ _ => true) ".py" "0123456789" false false
        ⟨some "old", none⟩).1 = true →
      (apply_surgery_safe (fun _ _ => true) ".py" "0123456789" false false
          ⟨some "old", none⟩).2.content = some "0123456789" ∧
      (apply_surgery_safe (fun _ _ => true) ".py" "0123456789" false false
          ⟨some "old", none⟩).2.journal = none) ∧
    ((apply_surgery_safe (fun _ _ => true) ".py" "0123456789" false false
        ⟨some "old", none⟩).1 = false →
      (apply_surgery_safe (fun _ _ => true) ".py" "0123456789" false false
          ⟨some "old", none⟩).2.content = some "old" ∧
      (apply_surgery_safe (fun _ _ => true) ".py" "0123456789" false false
          ⟨some "old", none⟩).2.journal = none) :=
  apply_surgery_safe_atomic (fun _ _ => true) ".py" "0123456789" false false
    ⟨some "old", none⟩ (by decide)

/-! ## AgentExecutor::run_autonomous_loop (src/agent/AgentExecutor.cpp, lines 113-262)

Per step the loop asks the LLM for a thought; `extract_json` either yields an
action object with a `tool` key (plus parameters, and for `FINAL_ANSWER` the
`answer` parameter) or nothing.  A `Thought` records exactly what the C++
inspects: the extracted action, the raw text, and whether the raw text
mentions `FINAL_ANSWER` / `final answer`.  The LLM and the tool registry are
oracles (`generate_text` in embedding_service.cpp always returns a string;
the registered tools catch their own exceptions and return strings).

Two JSON reads in the loop are unguarded string conversions and can throw
`nlohmann type_error.302` out of `run_autonomous_loop` (there is no
try/catch in it): `std::string tool_name = action["tool"];` at line 172, and
`params.value("answer", ...)` at line 191 in the `FINAL_ANSWER` branch.  The
values of those two keys are therefore kept JSON-typed (`JStr`, `JAnswer`):
`string` or present-with-another-type; the latter aborts the run.  The
`parameters` object itself is guarded (`is_object()`, line 184) and only
ever handed to oracles, so it stays an opaque string; `params.value("path",
...)` at line 205 sits inside the AST-scanner try/catch and cannot abort.
The loop returns the reached state plus `some answer` on a normal return or
`none` when the exception escapes (events already streamed remain emitted).

`max_steps = 10`: the C++ loop runs one step per element of the thought
list, which the service instantiates with ten.  The monologue is modelled as
the list of chunks the C++ appends to `internal_monologue`, events as the
`notify` phases in emission order. -/

/-- The JSON value under the `"tool"` key: a string, or a value of any other
JSON type (number, object, array, bool, null), whose unguarded conversion at
line 172 throws. -/
inductive JStr where
  | str (s : String)
  | nonstr
  deriving Repr, DecidableEq

/-- The state of `parameters["answer"]` as read by
`params.value("answer", "No answer provided.")`: absent (default used),
a string, or present with another type (throws). -/
inductive JAnswer where
  | absent
  | str (s : String)
  | nonstr
  deriving Repr, DecidableEq

structure ExtractedAction where
  tool : JStr
  params : String
  answer : JAnswer
  deriving Repr, DecidableEq

structure Thought where
  action : Option ExtractedAction
  raw : String
  mentionsFinal : Bool
  deriving Repr, DecidableEq

inductive AgentEvent where
  | thought
  | astScan (n : Nat)
  | toolExec (t : String)
  | final (payload : String)
  deriving Repr, DecidableEq

structure LoopState where
  monologue : List String
  lastTool : String
  secondLastTool : String
  events : List AgentEvent
  executed : List (String × String)
  deriving Repr, DecidableEq

def initLoopState : LoopState := ⟨[], "", "", [], []⟩

def loopNotice (tool : String) : String :=
  "[SYSTEM OVERRIDE: You have used the tool " ++ tool ++
  " three times consecutively. This suggests you are stuck in a loop. " ++
  "Either synthesize your findings with FINAL_ANSWER NOW, or try a different tool.]"

def invalidNotice : String :=
  "[SYSTEM ERROR: You did not use a valid tool call.]"

def astNotice (n : Nat) : String :=
  "[SYSTEM: AST Scanner detected " ++ toString n ++ " symbols.]"

def obsChunk (tool obs : String) : String :=
  "[CRITICAL DATA RECEIVED FROM " ++ tool ++ "]" ++ obs

def hintChunk (step : Nat) : String :=
  "(SYSTEM HINT: You have collected " ++ toString (step + 1) ++
  " observations. If you can answer the mission goal, use FINAL_ANSWER now to complete efficiently.)"

def timeoutMsg : String :=
  "Mission timed out after 10 steps without reaching FINAL_ANSWER."

/-- `observation.starts_with("ERROR")` on the raw bytes. -/
def errPre (obs : String) : Bool :=
  obs.data.take 5 == "ERROR".data

/-- `notify(writer, "THOUGHT", ...)` at the top of each step. -/
def pushThought (st : LoopState) : LoopState :=
  { st with events := st.events ++ [AgentEvent.thought] }

/-- Loop-detection (lines 175-180): the notice is appended exactly when the
extracted tool name equals the tool names of the two previously executed
steps; nothing else changes and the action is not suppressed. -/
def detectMono (tool : String) (st : LoopState) : List String :=
  if tool == st.lastTool && tool == st.secondLastTool then
    st.monologue ++ [loopNotice tool]
  else st.monologue

/-- The execution branch of one step (lines 197-238): dispatch, optional
AST-scan post-hook for `read_file`, observation chunk, tool tracking, the
step ≥ 2 auto-landing hint and the `TOOL_EXEC` event. -/
def execState (dispatch : String → String → String)
    (astCount : String → String → Nat) (tool params : String) (step : Nat)
    (st0 : LoopState) : LoopState :=
  let obs := dispatch tool params
  let astOk := tool == "read_file" && !(errPre obs)
  let astEv : List AgentEvent :=
    if astOk then [AgentEvent.astScan (astCount params obs)] else []
  let astMono : List String :=
    if astOk then [astNotice (astCount params obs)] else []
  let hint : List String := if 2 ≤ step then [hintChunk step] else []
  { monologue := detectMono tool st0 ++ astMono ++ [obsChunk tool obs] ++ hint
    lastTool := tool
    secondLastTool := st0.lastTool
    events := st0.events ++ astEv ++ [AgentEvent.toolExec tool]
    executed := st0.executed ++ [(tool, params)] }

/-- One step per thought.  The result's second component is `some answer`
for a normal return and `none` when the `type_error.302` exception escapes
the function: at a non-string `tool` value (line 172, right after the
`THOUGHT` event) or at a non-string `answer` in the `FINAL_ANSWER` branch
(line 191, after loop detection has run). -/
def runLoopAux (dispatch : String → String → String)
    (astCount : String → String → Nat) :
    List Thought → Nat → LoopState → LoopState × Option String
  | [], _, st =>
      ({ st with events := st.events ++ [AgentEvent.final timeoutMsg] },
       some timeoutMsg)
  | th :: rest, step, st =>
      let st0 := pushThought st
      match th.action with
      | some a =>
          match a.tool with
          | JStr.nonstr => (st0, none)
          | JStr.str tool =>
              if tool == "FINAL_ANSWER" then
                match a.answer with
                | JAnswer.nonstr =>
                    ({ st0 with monologue := detectMono tool st0 }, none)
                | JAnswer.absent =>
                    ({ st0 with
                        monologue := detectMono tool st0,
                        events := st0.events
                          ++ [AgentEvent.final "No answer provided."] },
                     some "No answer provided.")
                | JAnswer.str ans =>
                    ({ st0 with
                        monologue := detectMono tool st0,
                        events := st0.events ++ [AgentEvent.final ans] },
                     some ans)
              else
                runLoopAux dispatch astCount rest (step + 1)
                  (execState dispatch astCount tool a.params step st0)
      | none =>
          if th.mentionsFinal then
            ({ st0 with events := st0.events ++ [AgentEvent.final th.raw] },
             some th.raw)
          else
            runLoopAux dispatch astCount rest (step + 1)
              { st0 with monologue := st0.monologue ++ [invalidNotice] }

def run_autonomous_loop (dispatch : String → String → String)
    (astCount : String → String → Nat) (thoughts : List Thought) :
    LoopState × Option String :=
  runLoopAux dispatch astCount thoughts 0 initLoopState

def finalPayloads (evs : List AgentEvent) : List String :=
  evs.filterMap (fun e =>
    match e with
    | AgentEvent.final p => some p
    | _ => none)

theorem runLoopAux_finalPayloads (dispatch : String → String → String)
    (astCount : String → String → Nat) (thoughts : List Thought) :
    ∀ (step : Nat) (st : LoopState),
      finalPayloads (runLoopAux dispatch astCount thoughts step st).1.events
        = finalPayloads st.events
            ++ ((runLoopAux dispatch astCount thoughts step st).2).toList := by
  induction thoughts with
  | nil =>
      intro step st
      simp [runLoopAux, finalPayloads]
  | cons th rest ih =>
      intro step st
      cases ha : th.action with
      | some a =>
          cases ht : a.tool with
          | nonstr => simp [runLoopAux, ha, ht, finalPayloads, pushThought]
          | str tool =>
              by_cases hf : (tool == "FINAL_ANSWER") = true
              · cases hans : a.answer with
                | absent =>
                    simp [runLoopAux, ha, ht, hf, hans, finalPayloads, pushThought]
                | str ans =>
                    simp [runLoopAux, ha, ht, hf, hans, finalPayloads, pushThought]
                | nonstr =>
                    simp [runLoopAux, ha, ht, hf, hans, finalPayloads, pushThought]
              · have hf2 : (tool == "FINAL_ANSWER") = false := by
                  simpa using hf
                simp only [runLoopAux, ha, ht, hf2, Bool.false_eq_true, if_false]
                rw [ih]
                by_cases hast : (tool == "read_file" && !(errPre (dispatch tool a.params))) = true
                · simp [hast, execState, pushThought, finalPayloads]
                · have h2 : (tool == "read_file" && !(errPre (dispatch tool a.params))) = false := by
                    simpa using hast
                  simp [h2, execState, pushThought, finalPayloads]
      | none =>
          by_cases hm : th.mentionsFinal
          · simp [runLoopAux, ha, hm, finalPayloads, pushThought]
          · have hm2 : th.mentionsFinal = false := by
              simpa using hm
            simp only [runLoopAux, ha, hm2, Bool.false_eq_true, if_false]
            rw [ih]
            simp [finalPayloads, pushThought]

/-- C5 (amended): the `FINAL` events of a run are exactly the optional
returned answer — a run that returns normally emits exactly one `FINAL`
(the `FINAL_ANSWER` answer, a raw direct answer mentioning `FINAL_ANSWER`,
or the step-limit timeout message), and a run aborted by the unguarded
string conversions of lines 172 / 191 (non-string `tool` value, or
non-string `answer` in the `FINAL_ANSWER` branch) returns nothing and
emits zero `FINAL` events; no run emits more than one. -/
theorem run_autonomous_loop_final_events (dispatch : String → String → String)
    (astCount : String → String → Nat) (thoughts : List Thought) :
    finalPayloads (run_autonomous_loop dispatch astCount thoughts).1.events
      = ((run_autonomous_loop dispatch astCount thoughts).2).toList := by
  have h := runLoopAux_finalPayloads dispatch astCount thoughts 0 initLoopState
  simpa [run_autonomous_loop, initLoopState, finalPayloads] using h

def badTypeThought : Thought := ⟨some ⟨JStr.nonstr, "", JAnswer.absent⟩, "", false⟩

def goodFinalThought : Thought :=
  ⟨some ⟨JStr.str "FINAL_ANSWER", "", JAnswer.str "done"⟩, "", false⟩

def c5Dispatch : String → String → String := fun _ _ => "ok"

def c5Ast : String → String → Nat := fun _ _ => 0

/-- C5 counterexample: when the LLM returns `{"tool": 42}` at the first
step, the extracted object contains `"tool"`, the string conversion at line
172 throws `type_error.302` out of the loop, and the run emits a `THOUGHT`
event and zero `FINAL` events — refuting the claim that no run emits zero
`FINAL` events. -/
theorem run_loop_zero_final_on_type_error :
    (run_autonomous_loop c5Dispatch c5Ast
        (badTypeThought :: List.replicate 9 goodFinalThought)).1.events
      = [AgentEvent.thought] ∧
    finalPayloads (run_autonomous_loop c5Dispatch c5Ast
        (badTypeThought :: List.replicate 9 goodFinalThought)).1.events = [] ∧
    (run_autonomous_loop c5Dispatch c5Ast
        (badTypeThought :: List.replicate 9 goodFinalThought)).2 = none := by
  refine ⟨by decide, by decide, by decide⟩

/-- The loop only ever appends to the monologue and to the executed-action
trace: whatever a state already holds survives to the end of the run. -/
theorem runLoopAux_extend (dispatch : String → String → String)
    (astCount : String → String → Nat) (thoughts : List Thought) :
    ∀ (step : Nat) (st : LoopState),
      (∀ x, x ∈ st.monologue →
        x ∈ (runLoopAux dispatch astCount thoughts step st).1.monologue) ∧
      ∃ tl, (runLoopAux dispatch astCount thoughts step st).1.executed
              = st.executed ++ tl := by
  induction thoughts with
  | nil =>
      intro step st
      exact ⟨fun x hx => by simpa [runLoopAux] using hx, [], by simp [runLoopAux]⟩
  | cons th rest ih =>
      intro step st
      cases ha : th.action with
      | some a =>
          cases ht : a.tool with
          | nonstr =>
              exact ⟨fun x hx => by simpa [runLoopAux, ha, ht, pushThought] using hx,
                     [], by simp [runLoopAux, ha, ht, pushThought]⟩
          | str tool =>
              by_cases hf : (tool == "FINAL_ANSWER") = true
              · cases hans : a.answer with
                | absent =>
                    refine ⟨fun x hx => ?_, [],
                            by simp [runLoopAux, ha, ht, hf, hans, pushThought]⟩
                    simp [runLoopAux, ha, ht, hf, hans, pushThought, detectMono]
                    split <;> simp [hx]
                | str ans =>
                    refine ⟨fun x hx => ?_, [],
                            by simp [runLoopAux, ha, ht, hf, hans, pushThought]⟩
                    simp [runLoopAux, ha, ht, hf, hans, pushThought, detectMono]
                    split <;> simp [hx]
                | nonstr =>
                    refine ⟨fun x hx => ?_, [],
                            by simp [runLoopAux, ha, ht, hf, hans, pushThought]⟩
                    simp [runLoopAux, ha, ht, hf, hans, pushThought, detectMono]
                    split <;> simp [hx]
              · have hf2 : (tool == "FINAL_ANSWER") = false := by
                  simpa using hf
                simp only [runLoopAux, ha, ht, hf2, Bool.false_eq_true, if_false]
                obtain ⟨hmono, tl, hexec⟩ :=
                  ih (step + 1)
                    (execState dispatch astCount tool a.params step (pushThought st))
                refine ⟨fun x hx => ?_, [(tool, a.params)] ++ tl, ?_⟩
                · refine hmono x ?_
                  simp [execState, pushThought, detectMono]
                  refine Or.inl ?_
                  split <;> simp [hx]
                · rw [hexec]
                  simp [execState, pushThought]
      | none =>
          by_cases hm : th.mentionsFinal
          · exact ⟨fun x hx => by simpa [runLoopAux, ha, hm, pushThought] using hx,
                   [], by simp [runLoopAux, ha, hm, pushThought]⟩
          · have hm2 : th.mentionsFinal = false := by
              simpa using hm
            simp only [runLoopAux, ha, hm2, Bool.false_eq_true, if_false]
            obtain ⟨hmono, tl, hexec⟩ :=
              ih (step + 1)
                { pushThought st with
                    monologue := (pushThought st).monologue ++ [invalidNotice] }
            refine ⟨fun x hx => ?_, tl, ?_⟩
            · refine hmono x ?_
              simp [pushThought, hx]
            · rw [hexec]
              simp [pushThought]

/-- Unfolding of one executed (string-named, non-`FINAL_ANSWER`) step. -/
theorem runLoopAux_exec_step (dispatch : String → String → String)
    (astCount : String → String → Nat) (th : Thought) (rest : List Thought)
    (step : Nat) (st : LoopState) (a : ExtractedAction) (tool : String)
    (ha : th.action = some a) (ht : a.tool = JStr.str tool)
    (hf : (tool == "FINAL_ANSWER") = false) :
    runLoopAux dispatch astCount (th :: rest) step st
      = runLoopAux dispatch astCount rest (step + 1)
          (execState dispatch astCount tool a.params step (pushThought st)) := by
  simp only [runLoopAux, ha, ht, hf, Bool.false_eq_true, if_false]

/-- C4 (amended): loop detection keys on the tool name alone and compares it
with the two previously executed tools; when the LLM returns the same
(string-named, non-final) action in three successive steps from the start of
a run, the loop appends the loop-detected notice to the monologue at the
third step but still executes the action each time — three executions, not
one. -/
theorem loop_detection_executes_each_time (dispatch : String → String → String)
    (astCount : String → String → Nat) (a : ExtractedAction) (tool : String)
    (th1 th2 th3 : Thought) (rest : List Thought)
    (h1 : th1.action = some a) (h2 : th2.action = some a)
    (h3 : th3.action = some a) (htool : a.tool = JStr.str tool)
    (ht : tool ≠ "FINAL_ANSWER") (hz : tool ≠ "") :
    ∃ tl,
      (run_autonomous_loop dispatch astCount (th1 :: th2 :: th3 :: rest)).1.executed
        = (tool, a.params) :: (tool, a.params) :: (tool, a.params) :: tl ∧
      loopNotice tool ∈
        (run_autonomous_loop dispatch astCount (th1 :: th2 :: th3 :: rest)).1.monologue := by
  have hfin : (tool == "FINAL_ANSWER") = false := by
    simp [ht]
  have hempty : (tool == "") = false := by
    simp [hz]
  rw [run_autonomous_loop,
      runLoopAux_exec_step dispatch astCount th1 (th2 :: th3 :: rest) 0
        initLoopState a tool h1 htool hfin,
      runLoopAux_exec_step dispatch astCount th2 (th3 :: rest) 1 _ a tool h2 htool hfin,
      runLoopAux_exec_step dispatch astCount th3 rest 2 _ a tool h3 htool hfin]
  obtain ⟨hmono, tl, hexec⟩ :=
    runLoopAux_extend dispatch astCount rest 3
      (execState dispatch astCount tool a.params 2 (pushThought
        (execState dispatch astCount tool a.params 1 (pushThought
          (execState dispatch astCount tool a.params 0 (pushThought initLoopState))))))
  refine ⟨tl, ?_, ?_⟩
  · rw [hexec]
    simp [execState, pushThought, initLoopState]
  · refine hmono _ ?_
    simp [execState, pushThought, initLoopState, detectMono, hempty, beq_self_eq_true]

def cexAction : ExtractedAction := ⟨JStr.str "list_dir", "path=.", JAnswer.absent⟩

def cexThought : Thought := ⟨some cexAction, "", false⟩

def cexFinal : Thought :=
  ⟨some ⟨JStr.str "FINAL_ANSWER", "", JAnswer.str "done"⟩, "", false⟩

def cexDispatch : String → String → String := fun _ _ => "ok"

def cexAst : String → String → Nat := fun _ _ => 0

/-- Ten steps, of which the first three carry the identical `list_dir`
action and the fourth a `FINAL_ANSWER`. -/
def cexThoughts : List Thought :=
  [cexThought, cexThought, cexThought, cexFinal, cexFinal,
   cexFinal, cexFinal, cexFinal, cexFinal, cexFinal]

/-- C4 counterexample: with the identical action returned in three successive
steps, the loop dispatches it three times (once per step), never once — the
extracted action is executed even in the step where the loop-detected notice
is appended. -/
theorem loop_detection_claim_false :
    (run_autonomous_loop cexDispatch cexAst cexThoughts).1.executed
      = [("list_dir", "path=."), ("list_dir", "path=."), ("list_dir", "path=.")] ∧
    List.count ("list_dir", "path=.")
      (run_autonomous_loop cexDispatch cexAst cexThoughts).1.executed ≠ 1 := by
  refine ⟨by decide, by decide⟩

/-- Witness for the amended C4 theorem at the concrete scenario above. -/
theorem loop_detection_executes_each_time_witness :
    ∃ tl,
      (run_autonomous_loop cexDispatch cexAst
          (cexThought :: cexThought :: cexThought :: List.replicate 7 cexFinal)).1.executed
        = ("list_dir", "path=.") :: ("list_dir", "path=.") :: ("list_dir", "path=.") :: tl ∧
      loopNotice "list_dir" ∈
        (run_autonomous_loop cexDispatch cexAst
          (cexThought :: cexThought :: cexThought :: List.replicate 7 cexFinal)).1.monologue :=
  loop_detection_executes_each_time cexDispatch cexAst cexAction "list_dir"
    cexThought cexThought cexThought (List.replicate 7 cexFinal)
    rfl rfl rfl rfl (by decide) (by decide)

/-! ## RetrievalEngine::build_hierarchical_context (src/retrieval_engine.cpp, lines 51-81)

Candidates are walked in the given (score) order.  A candidate whose
`file_path` is in `included_files` is skipped — but the C++ inserts into
`included_files` only when the candidate's `type` is `"file"`.  The framed
entry is appended unless it would push the accumulated context past
`max_chars`, in which case the loop breaks.  `bhcEmitted` mirrors the same
recursion, returning the list of candidates whose blocks were appended. -/

structure Cand where
  file_path : String
  name : String
  type : String
  content : String
  deriving Repr, DecidableEq

def dashes : String := String.mk (List.replicate 50 '-')

def block (c : Cand) : String :=
  "\n\n# FILE: " ++ c.file_path ++ " | NODE: " ++ c.name ++
  " (Type: " ++ c.type ++ ")\n" ++ dashes ++ "\n" ++ c.content ++ "\n" ++ dashes ++ "\n"

def bhcAux (maxChars : Nat) : List Cand → List String → String → String
  | [], _, context => context
  | c :: rest, included, context =>
      if c.file_path ∈ included then bhcAux maxChars rest included context
      else
        let included2 := if c.type == "file" then c.file_path :: included else included
        if context.length + (block c).length > maxChars then context
        else bhcAux maxChars rest included2 (context ++ block c)

def build_hierarchical_context (cands : List Cand) (maxChars : Nat) : String :=
  bhcAux maxChars cands [] ""

/-- The sub-list of candidates whose blocks the loop appends. -/
def bhcEmitted (maxChars : Nat) : List Cand → List String → Nat → List Cand
  | [], _, _ => []
  | c :: rest, included, len =>
      if c.file_path ∈ included then bhcEmitted maxChars rest included len
      else
        let included2 := if c.type == "file" then c.file_path :: included else included
        if len + (block c).length > maxChars then []
        else c :: bhcEmitted maxChars rest included2 (len + (block c).length)

def emittedCands (cands : List Cand) (maxChars : Nat) : List Cand :=
  bhcEmitted maxChars cands [] 0

def catStrings : List String → String
  | [] => ""
  | s :: l => s ++ catStrings l

theorem bhcAux_eq_emitted (maxChars : Nat) (cands : List Cand) :
    ∀ (included : List String) (context : String),
      bhcAux maxChars cands included context
        = context ++ catStrings ((bhcEmitted maxChars cands included context.length).map block) := by
  induction cands with
  | nil => intro included context; simp [bhcAux, bhcEmitted, catStrings]
  | cons c rest ih =>
      intro included context
      by_cases hin : c.file_path ∈ included
      · simp [bhcAux, bhcEmitted, hin, ih]
      · by_cases hlen : context.length + (block c).length > maxChars
        · simp [bhcAux, bhcEmitted, hin, hlen, catStrings]
        · simp only [bhcAux, bhcEmitted, if_neg hin, if_neg hlen]
          rw [ih]
          simp [catStrings, String.length_append, String.append_assoc]

theorem bhcAux_length_le (maxChars : Nat) (cands : List Cand) :
    ∀ (included : List String) (context : String),
      context.length ≤ maxChars →
      (bhcAux maxChars cands included context).length ≤ maxChars := by
  induction cands with
  | nil => intro included context h; simpa [bhcAux] using h
  | cons c rest ih =>
      intro included context h
      by_cases hin : c.file_path ∈ included
      · simpa [bhcAux, hin] using ih included context h
      · by_cases hlen : context.length + (block c).length > maxChars
        · simpa [bhcAux, hin, hlen] using h
        · simp only [bhcAux, if_neg hin, if_neg hlen]
          refine ih _ _ ?_
          simp only [String.length_append]
          omega

theorem bhcEmitted_file_nodup (maxChars : Nat) (cands : List Cand) :
    ∀ (included : List String) (len : Nat),
      (∀ c ∈ bhcEmitted maxChars cands included len, c.file_path ∉ included) ∧
      (((bhcEmitted maxChars cands included len).filter
          (fun c => c.type == "file")).map (fun c => c.file_path)).Nodup := by
  induction cands with
  | nil => intro included len; simp [bhcEmitted]
  | cons c rest ih =>
      intro included len
      by_cases hin : c.file_path ∈ included
      · simpa [bhcEmitted, hin] using ih included len
      · by_cases hlen : len + (block c).length > maxChars
        · simp [bhcEmitted, hin, hlen]
        · by_cases hf : (c.type == "file") = true
          · obtain ⟨hmem, hnd⟩ :=
              ih (c.file_path :: included) (len + (block c).length)
            have hout : bhcEmitted maxChars (c :: rest) included len
                = c :: bhcEmitted maxChars rest (c.file_path :: included)
                    (len + (block c).length) := by
              simp [bhcEmitted, hin, hlen, hf]
            rw [hout]
            refine ⟨?_, ?_⟩
            · intro x hx
              rcases List.mem_cons.mp hx with rfl | hx2
              · exact hin
              · exact fun hc => (hmem x hx2) (List.mem_cons_of_mem _ hc)
            · rw [List.filter_cons]
              simp only [hf, if_true, List.map_cons, List.nodup_cons]
              refine ⟨?_, hnd⟩
              intro hc
              simp only [List.mem_map, List.mem_filter] at hc
              obtain ⟨y, ⟨hy, _⟩, hyp⟩ := hc
              exact (hmem y hy) (by simp [hyp])
          · have hf2 : (c.type == "file") = false := by simpa using hf
            obtain ⟨hmem, hnd⟩ := ih included (len + (block c).length)
            have hout : bhcEmitted maxChars (c :: rest) included len
                = c :: bhcEmitted maxChars rest included (len + (block c).length) := by
              simp [bhcEmitted, hin, hlen, hf2]
            rw [hout]
            refine ⟨?_, ?_⟩
            · intro x hx
              rcases List.mem_cons.mp hx with rfl | hx2
              · exact hin
              · exact hmem x hx2
            · rw [List.filter_cons]
              simp only [hf2, Bool.false_eq_true, if_false]
              exact hnd

/-- C7 (amended): the builder's output never exceeds `max_chars` (it stops
before a block that would overflow), it is exactly the concatenation of the
emitted framed blocks in score order, and deduplication holds for
candidates of type `"file"` only — the C++ records a path in
`included_files` just when the emitting node's type is `"file"`, so each
file path occurs at most once among file-type blocks, while non-file nodes
of the same file may all be emitted. -/
theorem build_hierarchical_context_spec (cands : List Cand) (maxChars : Nat) :
    (build_hierarchical_context cands maxChars).length ≤ maxChars ∧
    build_hierarchical_context cands maxChars
      = catStrings ((emittedCands cands maxChars).map block) ∧
    (((emittedCands cands maxChars).filter
        (fun c => c.type == "file")).map (fun c => c.file_path)).Nodup := by
  refine ⟨bhcAux_length_le maxChars cands [] "" (by simp), ?_,
          (bhcEmitted_file_nodup maxChars cands [] 0).2⟩
  have h := bhcAux_eq_emitted maxChars cands [] ""
  simpa [build_hierarchical_context, emittedCands] using h

def c7node1 : Cand := ⟨"f.ts", "foo", "code_block", "function foo() {}"⟩

def c7node2 : Cand := ⟨"f.ts", "bar", "code_block", "function bar() {}"⟩

set_option maxRecDepth 10000 in
/-- C7 counterexample: two non-`file` candidates from the same file are both
emitted — `included_files` is only populated by `type == "file"` nodes — so
the same file path appears twice in the output and the claimed
at-most-once-per-file property fails. -/
theorem build_hierarchical_context_repeats_file :
    (emittedCands [c7node1, c7node2] 100000).map (fun c => c.file_path)
      = ["f.ts", "f.ts"] ∧
    ¬ ((emittedCands [c7node1, c7node2] 100000).map (fun c => c.file_path)).Nodup ∧
    build_hierarchical_context [c7node1, c7node2] 100000
      = block c7node1 ++ block c7node2 := by
  refine ⟨by decide, by decide, ?_⟩
  have h := (build_hierarchical_context_spec [c7node1, c7node2] 100000).2.1
  rw [h]
  have he : emittedCands [c7node1, c7node2] 100000 = [c7node1, c7node2] := by decide
  rw [he]
  simp [catStrings]

/-! ## utf8_safe_substr (src/embedding_service.cpp, lines 27-38)

The function returns the whole string when it already fits; otherwise it
takes the first `n` bytes and pops bytes off the back: an ASCII byte
(`< 0x80`) stops the loop keeping everything, a lead byte (`≥ 0xC0`) is
popped and the loop stops, a continuation byte is popped and the loop goes
on.  `popLoop` is that while-loop, acting on the reversed suffix. -/

def isCont (b : Nat) : Bool :=
  decide (128 ≤ b) && decide (b < 192)

def popLoop : List Nat → List Nat
  | [] => []
  | b :: r => if b < 128 then b :: r else if 192 ≤ b then r else popLoop r

def utf8_safe_substr (s : List Nat) (n : Nat) : List Nat :=
  if s.length ≤ n then s
  else (popLoop ((s.take n).reverse)).reverse

/-- Well-formed UTF-8 byte strings: sequences of 1-4 byte codepoints. -/
inductive ValidUtf8 : List Nat → Prop where
  | nil : ValidUtf8 []
  | ascii (b : Nat) (rest : List Nat) :
      b < 128 → ValidUtf8 rest → ValidUtf8 (b :: rest)
  | two (b1 b2 : Nat) (rest : List Nat) :
      192 ≤ b1 → b1 < 224 → isCont b2 = true → ValidUtf8 rest →
      ValidUtf8 (b1 :: b2 :: rest)
  | three (b1 b2 b3 : Nat) (rest : List Nat) :
      224 ≤ b1 → b1 < 240 → isCont b2 = true → isCont b3 = true →
      ValidUtf8 rest → ValidUtf8 (b1 :: b2 :: b3 :: rest)
  | four (b1 b2 b3 b4 : Nat) (rest : List Nat) :
      240 ≤ b1 → b1 < 248 → isCont b2 = true → isCont b3 = true →
      isCont b4 = true → ValidUtf8 rest →
      ValidUtf8 (b1 :: b2 :: b3 :: b4 :: rest)

theorem isCont_false_lo {b : Nat} (h : b < 128) : isCont b = false := by
  simp [isCont, decide_eq_false (show ¬ (128 ≤ b) by omega)]

theorem isCont_false_hi {b : Nat} (h : 192 ≤ b) : isCont b = false := by
  simp [isCont, decide_eq_false (show ¬ (b < 192) by omega)]

theorem isCont_spec {b : Nat} (h : isCont b = true) : 128 ≤ b ∧ b < 192 := by
  simpa [isCont] using h

theorem popLoop_append (l1 l2 : List Nat) :
    popLoop (l1 ++ l2)
      = if l1.all isCont = true then popLoop l2 else popLoop l1 ++ l2 := by
  induction l1 with
  | nil => simp
  | cons b r ih =>
      by_cases hb1 : b < 128
      · simp [popLoop, hb1, isCont_false_lo hb1]
      · by_cases hb2 : 192 ≤ b
        · simp [popLoop, hb1, hb2, isCont_false_hi hb2]
        · have hc : isCont b = true := by
            simp [isCont, decide_eq_true (show 128 ≤ b by omega),
                  decide_eq_true (show b < 192 by omega)]
          simp [popLoop, hb1, hb2, hc, ih]

theorem popLoop_suffix (l : List Nat) : ∃ t, t ++ popLoop l = l := by
  induction l with
  | nil => exact ⟨[], rfl⟩
  | cons b r ih =>
      by_cases hb1 : b < 128
      · exact ⟨[], by simp [popLoop, hb1]⟩
      · by_cases hb2 : 192 ≤ b
        · exact ⟨[b], by simp [popLoop, hb1, hb2]⟩
        · obtain ⟨t, ht⟩ := ih
          exact ⟨b :: t, by simp [popLoop, hb1, hb2, ht]⟩

theorem head_not_cont {b : Nat} {r : List Nat} (h : ValidUtf8 (b :: r)) :
    isCont b = false := by
  cases h with
  | ascii _ _ hb _ => exact isCont_false_lo hb
  | two _ _ _ h1 _ _ _ => exact isCont_false_hi h1
  | three _ _ _ _ h1 _ _ _ _ => exact isCont_false_hi (by omega)
  | four _ _ _ _ _ h1 _ _ _ _ _ => exact isCont_false_hi (by omega)

theorem all_cont_take_nil {t : List Nat} (hv : ValidUtf8 t) (k : Nat)
    (hall : (t.take k).all isCont = true) : t.take k = [] := by
  cases k with
  | zero => rfl
  | succ k =>
      cases t with
      | nil => rfl
      | cons b r =>
          exfalso
          have hb := head_not_cont hv
          simp [List.take, hb] at hall

theorem valid_pop_take {s : List Nat} (hs : ValidUtf8 s) :
    ∀ n, ValidUtf8 ((popLoop ((s.take n).reverse)).reverse) := by
  induction hs with
  | nil => intro n; simpa [popLoop] using ValidUtf8.nil
  | ascii b rest hb hrest ih =>
      intro n
      rcases n with _ | n
      · simpa [popLoop] using ValidUtf8.nil
      · by_cases hall : ((rest.take n).all isCont) = true
        · have h0 : rest.take n = [] := all_cont_take_nil hrest n hall
          simpa [List.take, h0, popLoop, hb] using
            ValidUtf8.ascii b [] hb ValidUtf8.nil
        · have hrev : ((rest.take n).reverse).all isCont = true
              → False := by
            intro hx
            exact hall (by simpa using hx)
          rw [show ((b :: rest).take (n + 1)) = b :: rest.take n from rfl,
              show (b :: rest.take n).reverse = (rest.take n).reverse ++ [b] by simp,
              popLoop_append, if_neg hrev, List.reverse_append]
          simpa [popLoop, hb] using ValidUtf8.ascii b _ hb (ih n)
  | two b1 b2 rest h1 h2 hc hrest ih =>
      intro n
      obtain ⟨hc1, hc2⟩ := isCont_spec hc
      rcases n with _ | (_ | k)
      · simpa [popLoop] using ValidUtf8.nil
      · simpa [List.take, popLoop, show ¬ (b1 < 128) by omega, h1] using
          ValidUtf8.nil
      · by_cases hall : ((rest.take k).all isCont) = true
        · have h0 : rest.take k = [] := all_cont_take_nil hrest k hall
          simpa [List.take, h0, popLoop, show ¬ (b2 < 128) by omega,
                 show ¬ (192 ≤ b2) by omega, show ¬ (b1 < 128) by omega, h1]
            using ValidUtf8.nil
        · have hrev : ((rest.take k).reverse).all isCont = true → False := by
            intro hx; exact hall (by simpa using hx)
          rw [show ((b1 :: b2 :: rest).take (k + 2)) = b1 :: b2 :: rest.take k from rfl,
              show (b1 :: b2 :: rest.take k).reverse
                  = (rest.take k).reverse ++ [b2, b1] by simp,
              popLoop_append, if_neg hrev, List.reverse_append]
          simpa [popLoop] using ValidUtf8.two b1 b2 _ h1 h2 hc (ih k)
  | three b1 b2 b3 rest h1 h2 hc hd hrest ih =>
      intro n
      obtain ⟨hc1, hc2⟩ := isCont_spec hc
      obtain ⟨hd1, hd2⟩ := isCont_spec hd
      rcases n with _ | (_ | (_ | k))
      · simpa [popLoop] using ValidUtf8.nil
      · simpa [List.take, popLoop, show ¬ (b1 < 128) by omega,
               show (192:Nat) ≤ b1 by omega] using ValidUtf8.nil
      · simpa [List.take, popLoop, show ¬ (b2 < 128) by omega,
               show ¬ (192 ≤ b2) by omega, show ¬ (b1 < 128) by omega,
               show (192:Nat) ≤ b1 by omega] using ValidUtf8.nil
      · by_cases hall : ((rest.take k).all isCont) = true
        · have h0 : rest.take k = [] := all_cont_take_nil hrest k hall
          simpa [List.take, h0, popLoop, show ¬ (b3 < 128) by omega,
                 show ¬ (192 ≤ b3) by omega, show ¬ (b2 < 128) by omega,
                 show ¬ (192 ≤ b2) by omega, show ¬ (b1 < 128) by omega,
                 show (192:Nat) ≤ b1 by omega] using ValidUtf8.nil
        · have hrev : ((rest.take k).reverse).all isCont = true → False := by
            intro hx; exact hall (by simpa using hx)
          rw [show ((b1 :: b2 :: b3 :: rest).take (k + 3))
                  = b1 :: b2 :: b3 :: rest.take k from rfl,
              show (b1 :: b2 :: b3 :: rest.take k).reverse
                  = (rest.take k).reverse ++ [b3, b2, b1] by simp,
              popLoop_append, if_neg hrev, List.reverse_append]
          simpa [popLoop] using ValidUtf8.three b1 b2 b3 _ h1 h2 hc hd (ih k)
  | four b1 b2 b3 b4 rest h1 h2 hc hd he hrest ih =>
      intro n
      obtain ⟨hc1, hc2⟩ := isCont_spec hc
      obtain ⟨hd1, hd2⟩ := isCont_spec hd
      obtain ⟨he1, he2⟩ := isCont_spec he
      rcases n with _ | (_ | (_ | (_ | k)))
      · simpa [popLoop] using ValidUtf8.nil
      · simpa [List.take, popLoop, show ¬ (b1 < 128) by omega,
               show (192:Nat) ≤ b1 by omega] using ValidUtf8.nil
      · simpa [List.take, popLoop, show ¬ (b2 < 128) by omega,
               show ¬ (192 ≤ b2) by omega, show ¬ (b1 < 128) by omega,
               show (192:Nat) ≤ b1 by omega] using ValidUtf8.nil
      · simpa [List.take, popLoop, show ¬ (b3 < 128) by omega,
               show ¬ (192 ≤ b3) by omega, show ¬ (b2 < 128) by omega,
               show ¬ (192 ≤ b2) by omega, show ¬ (b1 < 128) by omega,
               show (192:Nat) ≤ b1 by omega] using ValidUtf8.nil
      · by_cases hall : ((rest.take k).all isCont) = true
        · have h0 : rest.take k = [] := all_cont_take_nil hrest k hall
          simpa [List.take, h0, popLoop, show ¬ (b4 < 128) by omega,
                 show ¬ (192 ≤ b4) by omega, show ¬ (b3 < 128) by omega,
                 show ¬ (192 ≤ b3) by omega, show ¬ (b2 < 128) by omega,
                 show ¬ (192 ≤ b2) by omega, show ¬ (b1 < 128) by omega,
                 show (192:Nat) ≤ b1 by omega] using ValidUtf8.nil
        · have hrev : ((rest.take k).reverse).all isCont = true → False := by
            intro hx; exact hall (by simpa using hx)
          rw [show ((b1 :: b2 :: b3 :: b4 :: rest).take (k + 4))
                  = b1 :: b2 :: b3 :: b4 :: rest.take k from rfl,
              show (b1 :: b2 :: b3 :: b4 :: rest.take k).reverse
                  = (rest.take k).reverse ++ [b4, b3, b2, b1] by simp,
              popLoop_append, if_neg hrev, List.reverse_append]
          simpa [popLoop] using ValidUtf8.four b1 b2 b3 b4 _ h1 h2 hc hd he (ih k)

/-- C8: `utf8_safe_substr s n` is a prefix of `s` of length at most `n`,
returns `s` itself when it already fits, and — on valid UTF-8 input — never
ends in the middle of a multibyte sequence (the result is itself valid
UTF-8: the cut point retreats to a codepoint boundary). -/
theorem utf8_safe_substr_spec (s : List Nat) (n : Nat) :
    (∃ t, utf8_safe_substr s n ++ t = s) ∧
    (utf8_safe_substr s n).length ≤ n ∧
    (s.length ≤ n → utf8_safe_substr s n = s) ∧
    (ValidUtf8 s → ValidUtf8 (utf8_safe_substr s n)) := by
  by_cases h : s.length ≤ n
  · refine ⟨⟨[], by simp [utf8_safe_substr, h]⟩, ?_, ?_, ?_⟩
    · simp [utf8_safe_substr, h]
    · intro _; simp [utf8_safe_substr, h]
    · intro hv; simpa [utf8_safe_substr, h] using hv
  · have hres : utf8_safe_substr s n = (popLoop ((s.take n).reverse)).reverse := by
      simp [utf8_safe_substr, h]
    obtain ⟨t, ht⟩ := popLoop_suffix ((s.take n).reverse)
    refine ⟨?_, ?_, ?_, ?_⟩
    · refine ⟨t.reverse ++ s.drop n, ?_⟩
      have h1 : (popLoop ((s.take n).reverse)).reverse ++ t.reverse = s.take n := by
        have h2 := congrArg List.reverse ht
        simpa [List.reverse_append] using h2
      rw [hres, ← List.append_assoc, h1, List.take_append_drop]
    · have h2 := congrArg List.length ht
      have h3 : (s.take n).length ≤ n := List.length_take_le n s
      rw [hres]
      simp only [List.length_append, List.length_reverse] at h2 ⊢
      omega
    · intro h3; exact absurd h3 h
    · intro hv; rw [hres]; exact valid_pop_take hv n

/-- Witness for C8 on the concrete byte string `a é` (0x61 0xC3 0xA9) cut at
2 bytes — the cut would split the two-byte codepoint, so the result retreats
to `[0x61]` — and identity on a string that already fits. -/
theorem utf8_safe_substr_spec_witness :
    (∃ t, utf8_safe_substr [97, 195, 169] 2 ++ t = [97, 195, 169]) ∧
    ValidUtf8 (utf8_safe_substr [97, 195, 169] 2) ∧
    utf8_safe_substr [97, 195, 169] 5 = [97, 195, 169] :=
  ⟨(utf8_safe_substr_spec [97, 195, 169] 2).1,
   (utf8_safe_substr_spec [97, 195, 169] 2).2.2.2
     (ValidUtf8.ascii 97 _ (by omega)
       (ValidUtf8.two 195 169 [] (by omega) (by omega) (by decide) ValidUtf8.nil)),
   (utf8_safe_substr_spec [97, 195, 169] 5).2.2.1 (by decide)⟩

/-! ## LRUCache / CacheManager (src/backend_cpp/include/cache_manager.hpp)

The cache holds a recency list (`cache_list_`, front = most recently used)
and a key map (`cache_map_`, modelled as an association list of
`key ↦ (value, expiry_time)`).  `get` evicts an expired entry, otherwise
splices the key to the front; `set` overwrites in place (refreshing the
expiry and splicing to front) or inserts after evicting the back of the
recency list when at capacity; `clear` empties both.  Time is the `now`
argument each operation receives (`steady_clock::now()`). -/

structure LRUCacheState (V : Type) where
  cache_list : List String
  cache_map : List (String × (V × Nat))

def mapLookup {α : Type} (k : String) : List (String × α) → Option α
  | [] => none
  | (k2, v) :: r => if k2 = k then some v else mapLookup k r

def mapErase {α : Type} (k : String) : List (String × α) → List (String × α)
  | [] => []
  | (k2, v) :: r => if k2 = k then r else (k2, v) :: mapErase k r

def mapReplace {α : Type} (k : String) (v : α) : List (String × α) → List (String × α)
  | [] => []
  | (k2, v2) :: r => if k2 = k then (k2, v) :: r else (k2, v2) :: mapReplace k v r

def lruGet {V : Type} (now : Nat) (k : String) (c : LRUCacheState V) :
    Option V × LRUCacheState V :=
  match mapLookup k c.cache_map with
  | none => (none, c)
  | some (v, expiry) =>
      if expiry < now then
        (none, ⟨c.cache_list.erase k, mapErase k c.cache_map⟩)
      else
        (some v, ⟨k :: c.cache_list.erase k, c.cache_map⟩)

def lruSet {V : Type} (max_size ttl now : Nat) (k : String) (v : V)
    (c : LRUCacheState V) : LRUCacheState V :=
  match mapLookup k c.cache_map with
  | some _ =>
      ⟨k :: c.cache_list.erase k, mapReplace k (v, now + ttl) c.cache_map⟩
  | none =>
      let c1 : LRUCacheState V :=
        if max_size ≤ c.cache_map.length then
          match c.cache_list.getLast? with
          | some lru => ⟨c.cache_list.dropLast, mapErase lru c.cache_map⟩
          | none => c
        else c
      ⟨k :: c1.cache_list, (k, (v, now + ttl)) :: c1.cache_map⟩

def lruClear {V : Type} : LRUCacheState V := ⟨[], []⟩

inductive CacheOp (V : Type) where
  | get (now : Nat) (k : String)
  | set (now : Nat) (k : String) (v : V)
  | clear

def applyCacheOp {V : Type} (max_size ttl : Nat) (c : LRUCacheState V) :
    CacheOp V → LRUCacheState V
  | CacheOp.get now k => (lruGet now k c).2
  | CacheOp.set now k v => lruSet max_size ttl now k v c
  | CacheOp.clear => lruClear

def runCacheOps {V : Type} (max_size ttl : Nat) (ops : List (CacheOp V)) :
    LRUCacheState V :=
  ops.foldl (applyCacheOp max_size ttl) lruClear

/-- The invariant of the claim: no more entries than the capacity, and the
recency list and the key map hold exactly the same keys (both without
duplicates, hence in bijection). -/
def CacheInv {V : Type} (max_size : Nat) (c : LRUCacheState V) : Prop :=
  c.cache_list.Nodup ∧
  (c.cache_map.map Prod.fst).Nodup ∧
  (∀ k, k ∈ c.cache_list ↔ k ∈ c.cache_map.map Prod.fst) ∧
  c.cache_list.length = c.cache_map.length ∧
  c.cache_map.length ≤ max_size

theorem mapLookup_eq_none {α : Type} (k : String) (m : List (String × α)) :
    mapLookup k m = none ↔ k ∉ m.map Prod.fst := by
  induction m with
  | nil => simp [mapLookup]
  | cons p r ih =>
      obtain ⟨k2, v⟩ := p
      by_cases h : k2 = k
      · subst h; simp [mapLookup]
      · simp [mapLookup, h, ih, Ne.symm h]

theorem keys_mapErase {α : Type} (k : String) (m : List (String × α)) :
    (mapErase k m).map Prod.fst = (m.map Prod.fst).erase k := by
  induction m with
  | nil => simp [mapErase]
  | cons p r ih =>
      obtain ⟨k2, v⟩ := p
      by_cases h : k2 = k
      · subst h; simp [mapErase]
      · have hb : ¬ (k2 == k) := by simp [h]
        simp [mapErase, h, ih, List.erase_cons_tail hb]

theorem keys_mapReplace {α : Type} (k : String) (v : α) (m : List (String × α)) :
    (mapReplace k v m).map Prod.fst = m.map Prod.fst := by
  induction m with
  | nil => rfl
  | cons p r ih =>
      obtain ⟨k2, v2⟩ := p
      by_cases h : k2 = k <;> simp [mapReplace, h, ih]

theorem length_mapReplace {α : Type} (k : String) (v : α) (m : List (String × α)) :
    (mapReplace k v m).length = m.length := by
  induction m with
  | nil => rfl
  | cons p r ih =>
      obtain ⟨k2, v2⟩ := p
      by_cases h : k2 = k <;> simp [mapReplace, h, ih]

theorem length_mapErase_of_mem {α : Type} {k : String} {m : List (String × α)}
    (h : k ∈ m.map Prod.fst) : (mapErase k m).length + 1 = m.length := by
  induction m with
  | nil => simp at h
  | cons p r ih =>
      obtain ⟨k2, v⟩ := p
      by_cases hk : k2 = k
      · subst hk; simp [mapErase]
      · have h2 : k ∈ r.map Prod.fst := by
          rcases List.mem_cons.mp h with h3 | h3
          · exact absurd h3.symm hk
          · exact h3
        simp [mapErase, hk, ih h2]

theorem cacheInv_applyCacheOp {V : Type} (max_size ttl : Nat)
    (hm : 1 ≤ max_size) (c : LRUCacheState V) (hc : CacheInv max_size c)
    (op : CacheOp V) : CacheInv max_size (applyCacheOp max_size ttl c op) := by
  obtain ⟨hnd1, hnd2, hmem, hlen, hcap⟩ := hc
  cases op with
  | clear =>
      refine ⟨List.nodup_nil, List.nodup_nil, ?_, rfl, ?_⟩
      · intro k; simp [lruClear, applyCacheOp]
      · simp [applyCacheOp, lruClear]
  | get now k =>
      simp only [applyCacheOp, lruGet]
      cases hL : mapLookup k c.cache_map with
      | none => exact ⟨hnd1, hnd2, hmem, hlen, hcap⟩
      | some p =>
          obtain ⟨v, expiry⟩ := p
          have hkm : k ∈ c.cache_map.map Prod.fst := by
            by_contra hk
            rw [← mapLookup_eq_none k c.cache_map] at hk
            rw [hk] at hL
            exact Option.noConfusion hL
          have hkl : k ∈ c.cache_list := (hmem k).mpr hkm
          by_cases hexp : expiry < now
          · simp only [hexp, if_true]
            refine ⟨hnd1.erase k, ?_, ?_, ?_, ?_⟩
            · rw [keys_mapErase]; exact hnd2.erase k
            · intro x
              rw [keys_mapErase, hnd1.mem_erase_iff, hnd2.mem_erase_iff]
              exact and_congr_right (fun _ => hmem x)
            · have e1 := List.length_erase_of_mem hkl
              have e2 := length_mapErase_of_mem hkm
              dsimp only
              omega
            · have e2 := length_mapErase_of_mem hkm
              dsimp only
              omega
          · simp only [hexp, if_false]
            refine ⟨?_, hnd2, ?_, ?_, hcap⟩
            · refine List.Nodup.cons ?_ (hnd1.erase k)
              rw [hnd1.mem_erase_iff]
              simp
            · intro x
              by_cases hx : x = k
              · subst hx; simp [hkm]
              · simp only [List.mem_cons, hnd1.mem_erase_iff]
                constructor
                · rintro (rfl | ⟨_, h2⟩)
                  · exact hkm
                  · exact (hmem x).mp h2
                · intro h2
                  exact Or.inr ⟨hx, (hmem x).mpr h2⟩
            · have e1 := List.length_erase_of_mem hkl
              have e3 : 0 < c.cache_list.length :=
                List.length_pos.mpr (List.ne_nil_of_mem hkl)
              dsimp only
              simp only [List.length_cons]
              omega
  | set now k v =>
      simp only [applyCacheOp, lruSet]
      cases hL : mapLookup k c.cache_map with
      | some p =>
          have hkm : k ∈ c.cache_map.map Prod.fst := by
            by_contra hk
            rw [← mapLookup_eq_none k c.cache_map] at hk
            rw [hk] at hL
            exact Option.noConfusion hL
          have hkl : k ∈ c.cache_list := (hmem k).mpr hkm
          refine ⟨?_, ?_, ?_, ?_, ?_⟩
          · refine List.Nodup.cons ?_ (hnd1.erase k)
            rw [hnd1.mem_erase_iff]
            simp
          · rw [keys_mapReplace]; exact hnd2
          · intro x
            rw [keys_mapReplace]
            by_cases hx : x = k
            · subst hx; simp [hkm]
            · simp only [List.mem_cons, hnd1.mem_erase_iff]
              constructor
              · rintro (rfl | ⟨_, h2⟩)
                · exact hkm
                · exact (hmem x).mp h2
              · intro h2
                exact Or.inr ⟨hx, (hmem x).mpr h2⟩
          · have e1 := List.length_erase_of_mem hkl
            have e3 : 0 < c.cache_list.length :=
              List.length_pos.mpr (List.ne_nil_of_mem hkl)
            dsimp only
            simp only [List.length_cons, length_mapReplace]
            omega
          · dsimp only
            rw [length_mapReplace]; exact hcap
      | none =>
          have hkm : k ∉ c.cache_map.map Prod.fst :=
            (mapLookup_eq_none k c.cache_map).mp hL
          have hkl : k ∉ c.cache_list := fun h => hkm ((hmem k).mp h)
          by_cases hfull : max_size ≤ c.cache_map.length
          · -- at capacity: evict the LRU entry from the back of the list
            have hne : c.cache_list ≠ [] := by
              intro h0
              rw [h0] at hlen
              simp at hlen
              omega
            obtain ⟨lru, hlru⟩ : ∃ lru, c.cache_list.getLast? = some lru := by
              cases hG : c.cache_list.getLast? with
              | none => exact absurd (List.getLast?_eq_none_iff.mp hG) hne
              | some x => exact ⟨x, rfl⟩
            obtain ⟨ys, hys⟩ := List.getLast?_eq_some_iff.mp hlru
            have hdrop : c.cache_list.dropLast = ys := by
              rw [hys]; simp
            have hlru_mem : lru ∈ c.cache_list := by
              rw [hys]; simp
            have hlru_km : lru ∈ c.cache_map.map Prod.fst := (hmem lru).mp hlru_mem
            have hnys : ys.Nodup ∧ lru ∉ ys := by
              rw [hys] at hnd1
              have h2 := List.Nodup.of_append_left hnd1
              have h3 := List.disjoint_of_nodup_append hnd1
              exact ⟨h2, fun hx => h3 hx (by simp)⟩
            simp only [hfull, if_true, hlru]
            refine ⟨?_, ?_, ?_, ?_, ?_⟩
            · refine List.Nodup.cons ?_ (by rw [hdrop]; exact hnys.1)
              rw [hdrop]
              intro hx
              exact hkl (by rw [hys]; exact List.mem_append_left _ hx)
            · simp only [List.map_cons, keys_mapErase]
              refine List.Nodup.cons ?_ (hnd2.erase lru)
              rw [hnd2.mem_erase_iff]
              rintro ⟨_, h2⟩
              exact hkm h2
            · intro x
              simp only [List.mem_cons, List.map_cons, keys_mapErase, hdrop,
                hnd2.mem_erase_iff]
              constructor
              · rintro (rfl | hx)
                · exact Or.inl rfl
                · refine Or.inr ⟨?_, (hmem x).mp (by rw [hys]; exact List.mem_append_left _ hx)⟩
                  intro h0
                  subst h0
                  exact hnys.2 hx
              · rintro (rfl | ⟨hxne, hx⟩)
                · exact Or.inl rfl
                · refine Or.inr ?_
                  have h2 := (hmem x).mpr hx
                  rw [hys] at h2
                  rcases List.mem_append.mp h2 with h3 | h3
                  · exact h3
                  · simp at h3
                    exact absurd h3 hxne
            · have e2 := length_mapErase_of_mem hlru_km
              have e3 : c.cache_list.length = ys.length + 1 := by
                rw [hys]; simp
              dsimp only
              simp only [List.length_cons, hdrop]
              omega
            · have e2 := length_mapErase_of_mem hlru_km
              dsimp only
              simp only [List.length_cons]
              omega
          · -- below capacity: plain insert
            simp only [hfull, if_false]
            refine ⟨List.Nodup.cons hkl hnd1, List.Nodup.cons hkm hnd2, ?_, ?_, ?_⟩
            · intro x
              simp only [List.mem_cons, List.map_cons]
              exact or_congr Iff.rfl (hmem x)
            · dsimp only
              simp [hlen]
            · dsimp only
              simp only [List.length_cons]
              omega

theorem cacheInv_foldl {V : Type} (max_size ttl : Nat) (hm : 1 ≤ max_size)
    (ops : List (CacheOp V)) :
    ∀ c, CacheInv max_size c →
      CacheInv max_size (ops.foldl (applyCacheOp max_size ttl) c) := by
  induction ops with
  | nil => intro c hc; simpa using hc
  | cons op rest ih =>
      intro c hc
      rw [List.foldl_cons]
      exact ih _ (cacheInv_applyCacheOp max_size ttl hm c hc op)

theorem cacheInv_lruClear {V : Type} (max_size : Nat) :
    CacheInv (V := V) max_size lruClear := by
  refine ⟨List.nodup_nil, List.nodup_nil, ?_, rfl, by simp [lruClear]⟩
  intro k; simp [lruClear]

/-- C10: after any sequence of `get`/`set`/`clear` operations on the
embedding cache (capacity 1000) or the result cache (capacity 500), the
number of stored entries never exceeds the construction-time capacity, and
the recency list and the key map always hold exactly the same set of keys
(`CacheInv` additionally records that both are duplicate-free and of equal
length — the bijection the claim states). -/
theorem cache_manager_invariant (V W : Type)
    (ops1 : List (CacheOp V)) (ops2 : List (CacheOp W)) :
    CacheInv 1000 (runCacheOps 1000 3600 ops1) ∧
    CacheInv 500 (runCacheOps 500 300 ops2) :=
  ⟨cacheInv_foldl 1000 3600 (by omega) ops1 lruClear (cacheInv_lruClear 1000),
   cacheInv_foldl 500 300 (by omega) ops2 lruClear (cacheInv_lruClear 500)⟩

/-! ## RetrievalEngine::retrieve / exponential_graph_expansion
(src/retrieval_engine.cpp, lines 12-49 and 83-139)

Scores are C++ `double`s; the development is generic in the score type `S`,
with the per-hop update `base * std::exp(-alpha * new_dist)` abstracted as
`stepf : S → Nat → S`, the scoring formula
`graph_score * (0.8 + s_weight * 0.2)` as `comb`, the default structural
weight `0.5` as `half`, the `final_score`-descending comparator as `cmp`,
and the `0.0` initializer of `final_score` as `z`; the claims instantiate
`S := ℝ`.  `GNode` carries the `CodeNode` fields this path reads (`id`,
`dependencies`, `weights`); `lookup` models
`vector_store_->get_node_by_name` (the FAISS search producing the seeds is
an external library, so seeds are an input).  The `visited` unordered map is
an insertion-ordered association list. -/

structure GNode (S : Type) where
  id : String
  dependencies : List String
  weights : List (String × S)
  deriving Repr, DecidableEq

structure FaissSearchResult (S : Type) where
  node : GNode S
  faiss_score : S
  deriving Repr, DecidableEq

structure RetrievalResultS (S : Type) where
  node : GNode S
  graph_score : S
  final_score : S
  distance : Nat
  deriving Repr, DecidableEq

/-- The inner `for (dep_name : curr->dependencies)` loop: resolve each
dependency, skip visited ones, record the decayed score at `dist + 1`, and
collect the items to enqueue (in order). -/
def expandDeps {S : Type} (lookup : String → Option (GNode S))
    (stepf : S → Nat → S) (z : S) (base : S) (dist : Nat) :
    List String → List (String × RetrievalResultS S) →
    List (String × RetrievalResultS S) × List (GNode S × Nat × S)
  | [], visited => (visited, [])
  | dep :: deps, visited =>
      match lookup dep with
      | none => expandDeps lookup stepf z base dist deps visited
      | some nd =>
          match mapLookup nd.id visited with
          | some _ => expandDeps lookup stepf z base dist deps visited
          | none =>
              let p := expandDeps lookup stepf z base dist deps
                (visited ++ [(nd.id, ⟨nd, stepf base (dist + 1), z, dist + 1⟩)])
              (p.1, (nd, dist + 1, stepf base (dist + 1)) :: p.2)

theorem expandDeps_length {S : Type} (lookup : String → Option (GNode S))
    (stepf : S → Nat → S) (z : S) (base : S) (dist : Nat) :
    ∀ (deps : List String) (visited : List (String × RetrievalResultS S)),
      (expandDeps lookup stepf z base dist deps visited).1.length
        = visited.length + (expandDeps lookup stepf z base dist deps visited).2.length := by
  intro deps
  induction deps with
  | nil => intro visited; simp [expandDeps]
  | cons dep deps ih =>
      intro visited
      cases hl : lookup dep with
      | none => simpa [expandDeps, hl] using ih visited
      | some nd =>
          cases hv : mapLookup nd.id visited with
          | some r => simpa [expandDeps, hl, hv] using ih visited
          | none =>
              have h2 := ih (visited ++ [(nd.id, ⟨nd, stepf base (dist + 1), z, dist + 1⟩)])
              simp only [expandDeps, hl, hv]
              simp only [List.length_append, List.length_cons, List.length_nil] at h2 ⊢
              omega

/-- The `while (!queue.empty() && visited.size() < max_nodes)` BFS loop
(lines 103-122): pop, skip at `dist >= max_hops`, otherwise expand the
dependencies and enqueue the new items. -/
def expandLoop {S : Type} (lookup : String → Option (GNode S))
    (stepf : S → Nat → S) (z : S) (maxNodes maxHops : Nat) :
    List (String × RetrievalResultS S) → List (GNode S × Nat × S) →
    List (String × RetrievalResultS S)
  | visited, [] => visited
  | visited, (curr, dist, base) :: rest =>
      if visited.length < maxNodes then
        if maxHops ≤ dist then
          expandLoop lookup stepf z maxNodes maxHops visited rest
        else
          expandLoop lookup stepf z maxNodes maxHops
            (expandDeps lookup stepf z base dist curr.dependencies visited).1
            (rest ++ (expandDeps lookup stepf z base dist curr.dependencies visited).2)
      else visited
  termination_by visited queue => (maxNodes - visited.length, queue.length)
  decreasing_by
  · simp_wf
    rw [Prod.lex_def]
    exact Or.inr ⟨rfl, Nat.lt_succ_self rest.length⟩
  · simp_wf
    rw [Prod.lex_def]
    have h := expandDeps_length lookup stepf z base dist curr.dependencies visited
    by_cases hp : (expandDeps lookup stepf z base dist curr.dependencies visited).2.length = 0
    · refine Or.inr ⟨?_, ?_⟩
      · show maxNodes - (expandDeps lookup stepf z base dist curr.dependencies visited).1.length
            = maxNodes - visited.length
        omega
      · show rest.length + (expandDeps lookup stepf z base dist curr.dependencies visited).2.length
            < rest.length + 1
        omega
    · refine Or.inl ?_
      show maxNodes - (expandDeps lookup stepf z base dist curr.dependencies visited).1.length
          < maxNodes - visited.length
      omega

/-- Seed insertion (lines 94-99): unvisited seeds are recorded at distance 0
with their `faiss_score` as `graph_score` and enqueued in order. -/
def seedInit {S : Type} (z : S) :
    List (FaissSearchResult S) → List (String × RetrievalResultS S) →
    List (String × RetrievalResultS S) × List (GNode S × Nat × S)
  | [], visited => (visited, [])
  | s :: rest, visited =>
      match mapLookup s.node.id visited with
      | some _ => seedInit z rest visited
      | none =>
          let p := seedInit z rest
            (visited ++ [(s.node.id, ⟨s.node, s.faiss_score, z, 0⟩)])
          (p.1, (s.node, 0, s.faiss_score) :: p.2)

def exponential_graph_expansion {S : Type} (lookup : String → Option (GNode S))
    (stepf : S → Nat → S) (z : S) (seeds : List (FaissSearchResult S))
    (maxNodes maxHops : Nat) : List (RetrievalResultS S) :=
  (expandLoop lookup stepf z maxNodes maxHops
    (seedInit z seeds []).1 (seedInit z seeds []).2).map Prod.snd

def structuralWeight {S : Type} (half : S) (r : RetrievalResultS S) : S :=
  match mapLookup "structural" r.node.weights with
  | some w => w
  | none => half

def multi_dimensional_scoring {S : Type} (comb : S → S → S) (half : S)
    (rs : List (RetrievalResultS S)) : List (RetrievalResultS S) :=
  rs.map (fun r =>
    { r with final_score := comb r.graph_score (structuralWeight half r) })

/-- `RetrievalEngine::retrieve`: seeds → expansion with
`(max_nodes = 200, max_hops = 3, alpha = 0.5)` → scoring → sort by
`final_score` descending → truncate to `max_nodes`. -/
def retrieve {S : Type} (lookup : String → Option (GNode S))
    (stepf : S → Nat → S) (z : S) (comb : S → S → S) (half : S)
    (cmp : RetrievalResultS S → RetrievalResultS S → Bool)
    (seeds : List (FaissSearchResult S)) (max_nodes : Nat) :
    List (RetrievalResultS S) :=
  ((multi_dimensional_scoring comb half
      (exponential_graph_expansion lookup stepf z seeds 200 3)).mergeSort cmp).take
    max_nodes

/-- The compounded decay along a first-reach chain: one `stepf` application
per hop, at distances 1, 2, …, d. -/
def decay {S : Type} (stepf : S → Nat → S) (x : S) : Nat → S
  | 0 => x
  | d + 1 => stepf (decay stepf x d) (d + 1)

/-- Invariant of the visited map: every recorded result sits within
`maxHops` and carries the compound decay of some seed's score. -/
def VisInv {S : Type} (stepf : S → Nat → S) (seeds : List (FaissSearchResult S))
    (maxHops : Nat) (visited : List (String × RetrievalResultS S)) : Prop :=
  ∀ e ∈ visited, e.2.distance ≤ maxHops ∧
    ∃ s ∈ seeds, e.2.graph_score = decay stepf s.faiss_score e.2.distance

/-- The matching invariant of the BFS queue. -/
def QInv {S : Type} (stepf : S → Nat → S) (seeds : List (FaissSearchResult S))
    (maxHops : Nat) (queue : List (GNode S × Nat × S)) : Prop :=
  ∀ q ∈ queue, q.2.1 ≤ maxHops ∧
    ∃ s ∈ seeds, q.2.2 = decay stepf s.faiss_score q.2.1

theorem expandDeps_inv {S : Type} (lookup : String → Option (GNode S))
    (stepf : S → Nat → S) (z : S) (seeds : List (FaissSearchResult S))
    (maxHops : Nat) (base : S) (dist : Nat)
    (hb : ∃ s ∈ seeds, base = decay stepf s.faiss_score dist)
    (hdist : dist < maxHops) :
    ∀ (deps : List String) (visited : List (String × RetrievalResultS S)),
      VisInv stepf seeds maxHops visited →
      VisInv stepf seeds maxHops (expandDeps lookup stepf z base dist deps visited).1 ∧
      QInv stepf seeds maxHops (expandDeps lookup stepf z base dist deps visited).2 := by
  intro deps
  induction deps with
  | nil =>
      intro visited hv
      refine ⟨by simpa [expandDeps] using hv, ?_⟩
      intro q hq
      simp [expandDeps] at hq
  | cons dep deps ih =>
      intro visited hv
      cases hl : lookup dep with
      | none => simpa [expandDeps, hl] using ih visited hv
      | some nd =>
          cases hvd : mapLookup nd.id visited with
          | some r => simpa [expandDeps, hl, hvd] using ih visited hv
          | none =>
              obtain ⟨s, hs, hbs⟩ := hb
              have hscore : stepf base (dist + 1)
                  = decay stepf s.faiss_score (dist + 1) := by
                rw [hbs]
                rfl
              have hv2 : VisInv stepf seeds maxHops
                  (visited ++ [(nd.id, ⟨nd, stepf base (dist + 1), z, dist + 1⟩)]) := by
                intro e he
                rcases List.mem_append.mp he with he2 | he2
                · exact hv e he2
                · simp at he2
                  subst he2
                  exact ⟨show dist + 1 ≤ maxHops by omega, s, hs, hscore⟩
              obtain ⟨hp1, hp2⟩ := ih _ hv2
              simp only [expandDeps, hl, hvd]
              refine ⟨hp1, ?_⟩
              intro q hq
              rcases List.mem_cons.mp hq with rfl | hq2
              · exact ⟨show dist + 1 ≤ maxHops by omega, s, hs, hscore⟩
              · exact hp2 q hq2

theorem expandLoop_inv {S : Type} (lookup : String → Option (GNode S))
    (stepf : S → Nat → S) (z : S) (maxNodes maxHops : Nat)
    (seeds : List (FaissSearchResult S)) :
    ∀ (visited : List (String × RetrievalResultS S))
      (queue : List (GNode S × Nat × S)),
      VisInv stepf seeds maxHops visited → QInv stepf seeds maxHops queue →
      VisInv stepf seeds maxHops
        (expandLoop lookup stepf z maxNodes maxHops visited queue) := by
  intro visited queue
  induction visited, queue using expandLoop.induct lookup stepf z maxNodes maxHops with
  | case1 visited =>
      intro hv _
      simpa [expandLoop] using hv
  | case2 visited curr dist base rest h1 h2 ih =>
      intro hv hq
      rw [expandLoop, if_pos h1, if_pos h2]
      exact ih hv (fun q hq2 => hq q (List.mem_cons_of_mem _ hq2))
  | case3 visited curr dist base rest h1 h2 ih =>
      intro hv hq
      rw [expandLoop, if_pos h1, if_neg h2]
      have hhead := hq (curr, dist, base) (List.mem_cons_self _ _)
      obtain ⟨hp1, hp2⟩ := expandDeps_inv lookup stepf z seeds maxHops base dist
        hhead.2 (by omega) curr.dependencies visited hv
      refine ih hp1 ?_
      intro q hq2
      rcases List.mem_append.mp hq2 with hq3 | hq3
      · exact hq q (List.mem_cons_of_mem _ hq3)
      · exact hp2 q hq3
  | case4 visited curr dist base rest h1 =>
      intro hv _
      rw [expandLoop, if_neg h1]
      exact hv

theorem seedInit_inv {S : Type} (z : S) (stepf : S → Nat → S)
    (seeds : List (FaissSearchResult S)) (maxHops : Nat) :
    ∀ (ss : List (FaissSearchResult S))
      (visited : List (String × RetrievalResultS S)),
      (∀ s ∈ ss, s ∈ seeds) →
      VisInv stepf seeds maxHops visited →
      VisInv stepf seeds maxHops (seedInit z ss visited).1 ∧
      QInv stepf seeds maxHops (seedInit z ss visited).2 := by
  intro ss
  induction ss with
  | nil =>
      intro visited _ hv
      refine ⟨by simpa [seedInit] using hv, ?_⟩
      intro q hq
      simp [seedInit] at hq
  | cons s ss ih =>
      intro visited hsub hv
      have hs : s ∈ seeds := hsub s (List.mem_cons_self _ _)
      have hsub2 : ∀ x ∈ ss, x ∈ seeds := fun x hx => hsub x (List.mem_cons_of_mem _ hx)
      cases hvd : mapLookup s.node.id visited with
      | some r => simpa [seedInit, hvd] using ih visited hsub2 hv
      | none =>
          have hv2 : VisInv stepf seeds maxHops
              (visited ++ [(s.node.id, ⟨s.node, s.faiss_score, z, 0⟩)]) := by
            intro e he
            rcases List.mem_append.mp he with he2 | he2
            · exact hv e he2
            · simp at he2
              subst he2
              exact ⟨Nat.zero_le _, s, hs, rfl⟩
          obtain ⟨hp1, hp2⟩ := ih _ hsub2 hv2
          simp only [seedInit, hvd]
          refine ⟨hp1, ?_⟩
          intro q hq
          rcases List.mem_cons.mp hq with rfl | hq2
          · exact ⟨Nat.zero_le _, s, hs, rfl⟩
          · exact hp2 q hq2

/-- The real-score instantiation of per-hop decay, and its closed form:
`d` hops compound to `exp (-(1/2) * (1 + 2 + ⋯ + d))`. -/
theorem decay_real_closed (x : ℝ) :
    ∀ d : Nat, decay (fun b k => b * Real.exp (-(1 / 2) * (k : ℝ))) x d
      = x * Real.exp (-(1 / 2) * (d * (d + 1) / 2 : ℝ)) := by
  intro d
  induction d with
  | zero => simp [decay]
  | succ d ih =>
      rw [decay, ih, mul_assoc, ← Real.exp_add]
      congr 2
      push_cast
      ring

/-- C1 (amended): every result of `retrieve` has `distance ≤ 3`, and its
`graph_score` is the seed score compounded by one decay factor per hop —
`stepf` applied at distances 1, …, d (at `S = ℝ` with α = 0.5 this is
`seed_score · e^(−0.5·(1+2+⋯+d))`, which for d ≥ 2 lies strictly below the
claimed `seed_score · e^(−0.5·d)` when the seed score is positive). -/
theorem retrieve_distance_le_and_decay {S : Type}
    (lookup : String → Option (GNode S)) (stepf : S → Nat → S) (z : S)
    (comb : S → S → S) (half : S)
    (cmp : RetrievalResultS S → RetrievalResultS S → Bool)
    (seeds : List (FaissSearchResult S)) (max_nodes : Nat)
    (r : RetrievalResultS S)
    (hr : r ∈ retrieve lookup stepf z comb half cmp seeds max_nodes) :
    r.distance ≤ 3 ∧
    ∃ s ∈ seeds, r.graph_score = decay stepf s.faiss_score r.distance := by
  have h1 : r ∈ (multi_dimensional_scoring comb half
      (exponential_graph_expansion lookup stepf z seeds 200 3)).mergeSort cmp :=
    List.mem_of_mem_take hr
  rw [List.mem_mergeSort] at h1
  rw [multi_dimensional_scoring, List.mem_map] at h1
  obtain ⟨r0, hr0, hr0eq⟩ := h1
  rw [exponential_graph_expansion, List.mem_map] at hr0
  obtain ⟨e, he, he2⟩ := hr0
  have hinv := expandLoop_inv lookup stepf z 200 3 seeds
    (seedInit z seeds []).1 (seedInit z seeds []).2
    (seedInit_inv z stepf seeds 3 seeds [] (fun s hs => hs) (by intro e2 he2; simp at he2)).1
    (seedInit_inv z stepf seeds 3 seeds [] (fun s hs => hs) (by intro e2 he2; simp at he2)).2
  have hprops := hinv e he
  have hg : r.graph_score = e.2.graph_score := by
    rw [← hr0eq, ← he2]
  have hd : r.distance = e.2.distance := by
    rw [← hr0eq, ← he2]
  rw [hg, hd]
  exact hprops

/-- C1 (amended): at the real scores the program computes (α = 0.5), every
result of `retrieve` satisfies `distance ≤ 3`, and its `graph_score` equals
`seed_score · e^(−0.5·(1+2+⋯+distance))` for some seed — the decay
compounds one factor `e^(−0.5·new_dist)` per hop, rather than the single
`e^(−0.5·distance)` factor of the original claim (for `distance ≥ 2` and a
positive seed score the compound value is strictly smaller). -/
theorem retrieve_real_distance_score (lookup : String → Option (GNode ℝ))
    (z : ℝ) (comb : ℝ → ℝ → ℝ) (half : ℝ)
    (cmp : RetrievalResultS ℝ → RetrievalResultS ℝ → Bool)
    (seeds : List (FaissSearchResult ℝ)) (max_nodes : Nat)
    (r : RetrievalResultS ℝ)
    (hr : r ∈ retrieve lookup (fun b k => b * Real.exp (-(1 / 2) * (k : ℝ)))
            z comb half cmp seeds max_nodes) :
    r.distance ≤ 3 ∧
    ∃ s ∈ seeds, r.graph_score
        = s.faiss_score
            * Real.exp (-(1 / 2) * (r.distance * (r.distance + 1) / 2 : ℝ)) := by
  obtain ⟨h1, s, hs, h2⟩ := retrieve_distance_le_and_decay lookup
    (fun b k => b * Real.exp (-(1 / 2) * (k : ℝ))) z comb half cmp seeds
    max_nodes r hr
  exact ⟨h1, s, hs, by rw [h2, decay_real_closed]⟩

/-- The dependency chain a → b → c used to refute the original C1 bound. -/
def gna : GNode ℝ := ⟨"a", ["b"], []⟩

def gnb : GNode ℝ := ⟨"b", ["c"], []⟩

def gnc : GNode ℝ := ⟨"c", [], []⟩

def cexLookup : String → Option (GNode ℝ) := fun n =>
  if n = "a" then some gna
  else if n = "b" then some gnb
  else if n = "c" then some gnc
  else none

def cexSeeds : List (FaissSearchResult ℝ) := [⟨gna, 1⟩]

theorem cex_expansion_eval :
    exponential_graph_expansion cexLookup
        (fun b k => b * Real.exp (-(1 / 2) * (k : ℝ))) 0 cexSeeds 200 3
      = [⟨gna, 1, 0, 0⟩,
         ⟨gnb, 1 * Real.exp (-(1 / 2) * ((1 : Nat) : ℝ)), 0, 1⟩,
         ⟨gnc, 1 * Real.exp (-(1 / 2) * ((1 : Nat) : ℝ))
                 * Real.exp (-(1 / 2) * ((2 : Nat) : ℝ)), 0, 2⟩] := by
  simp [exponential_graph_expansion, seedInit, expandLoop, expandDeps,
        mapLookup, cexLookup, cexSeeds, gna, gnb, gnc]

/-- C1 counterexample: on the chain a → b → c with a single seed `a` of
`faiss_score = 1`, `retrieve` returns `c` at distance 2 with
`graph_score = e^(−0.5·1)·e^(−0.5·2) = e^(−1.5)`, strictly below the
claimed bound `seed_score · e^(−0.5·2) = e^(−1)`. -/
theorem retrieve_decay_claim_false :
    ∃ r ∈ retrieve cexLookup (fun b k => b * Real.exp (-(1 / 2) * (k : ℝ))) 0
        (fun g w => g * (0.8 + w * 0.2)) 0.5
        (fun a b => decide (b.final_score < a.final_score)) cexSeeds 80,
      r.distance = 2 ∧
      ¬ ((1 : ℝ) * Real.exp (-(1 / 2) * (r.distance : ℝ)) ≤ r.graph_score) := by
  refine ⟨⟨gnc, 1 * Real.exp (-(1 / 2) * ((1 : Nat) : ℝ))
              * Real.exp (-(1 / 2) * ((2 : Nat) : ℝ)),
            (1 * Real.exp (-(1 / 2) * ((1 : Nat) : ℝ))
              * Real.exp (-(1 / 2) * ((2 : Nat) : ℝ))) * (0.8 + 0.5 * 0.2), 2⟩,
          ?_, rfl, ?_⟩
  · simp only [retrieve]
    rw [cex_expansion_eval,
        List.take_of_length_le (by simp [multi_dimensional_scoring]),
        List.mem_mergeSort]
    simp [multi_dimensional_scoring, structuralWeight, mapLookup, gnc]
  · rw [not_le]
    show (1 * Real.exp (-(1 / 2) * ((1 : Nat) : ℝ))
        * Real.exp (-(1 / 2) * ((2 : Nat) : ℝ)))
      < 1 * Real.exp (-(1 / 2) * ((2 : Nat) : ℝ))
    rw [one_mul, one_mul, ← Real.exp_add]
    apply Real.exp_lt_exp.mpr
    push_cast
    norm_num

/-- Witness for the amended C1 theorem: a one-node project whose single seed
comes back at distance 0 with its own score. -/
theorem retrieve_real_distance_score_witness :
    ((⟨⟨"a", [], []⟩, 1, 1, 0⟩ : RetrievalResultS ℝ).distance ≤ 3) ∧
    ∃ s ∈ ([⟨⟨"a", [], []⟩, 1⟩] : List (FaissSearchResult ℝ)),
      (⟨⟨"a", [], []⟩, 1, 1, 0⟩ : RetrievalResultS ℝ).graph_score
        = s.faiss_score * Real.exp (-(1 / 2) *
            ((⟨⟨"a", [], []⟩, 1, 1, 0⟩ : RetrievalResultS ℝ).distance
              * ((⟨⟨"a", [], []⟩, 1, 1, 0⟩ : RetrievalResultS ℝ).distance + 1) / 2
              : ℝ)) :=
  retrieve_real_distance_score (fun _ => none) 0 (fun g _ => g) 0
    (fun _ _ => true) [⟨⟨"a", [], []⟩, 1⟩] 80 ⟨⟨"a", [], []⟩, 1, 1, 0⟩ (by
      have hexp : exponential_graph_expansion (fun _ => none)
          (fun b k => b * Real.exp (-(1 / 2) * (k : ℝ))) 0
          [⟨⟨"a", [], []⟩, (1 : ℝ)⟩] 200 3 = [⟨⟨"a", [], []⟩, 1, 0, 0⟩] := by
        simp [exponential_graph_expansion, seedInit, expandLoop, expandDeps,
              mapLookup]
      simp only [retrieve]
      rw [hexp,
          List.take_of_length_le (by simp [multi_dimensional_scoring]),
          List.mem_mergeSort]
      simp [multi_dimensional_scoring, structuralWeight, mapLookup])

end StudyAssistant
